import Mathlib

/-!
Verification of the gradual-pattern mining core of the so4gp/swarmgp
repository against its natural-language specification.

The embedding below translates, into Lean:
  * `Dataset.init_gp_attributes` (bitmap construction of 1-item valid bins),
  * `GRAANK._gen_apriori_candidates` and the level-wise loop of
    `GRAANK.discover` (Apriori join),
  * `validate_gp` (incremental pattern validation, identical in
    `so4gp_pkg/so4gp.py` and `swarmgp_pkg/aco_gp.py`),
  * `decode_gp` / `NumericSS.decode_gp` (search-position decoding),
  * the opening lines of `run_genetic_algorithm` (degenerate-space path).

Numeric data values and supports are rationals (the Python code uses
floats on exact small integers); boolean pairwise matrices are lists of
lists of `Bool`; Python sets of gradual items are represented by lists
kept sorted by a canonical key (column-major), the standard canonical
form of a finite set.
-/

/-- A gradual item: (column index, direction), `true` for `+`/increasing,
`false` for `-`/decreasing.  Mirrors class `GI` of `so4gp_pkg/so4gp.py`. -/
abbrev GIb := ℕ × Bool

/-- A pairwise comparison matrix: n rows of n booleans. -/
abbrev Mat := List (List Bool)

/-- Number of `true` entries in one row. -/
def countTrue (r : List Bool) : ℕ := r.countP id

/-- Total number of `true` entries of a matrix: `np.sum(temp_pos)`. -/
def matSum (m : Mat) : ℕ := (m.map countTrue).sum

/-- Elementwise product of two 0/1 matrices (`bin1 * bin2` in numpy),
which on booleans is pointwise AND. -/
def matMul (a b : Mat) : Mat := List.zipWith (List.zipWith and) a b

/-- Entry access with the usual out-of-range default. -/
def entryM (m : Mat) (i j : ℕ) : Bool := (m.getD i []).getD j false

/-- Matrix transpose (`temp_pos.T`), for the square matrices built here. -/
def transposeM (m : Mat) : Mat :=
  (List.range m.length).map (fun j => (List.range m.length).map (fun i => entryM m i j))

/-- Support of a bitmap over `n` rows:
`float(np.sum(temp_pos)) / float(n * (n - 1.0) / 2.0)`.  Since
`n * (n - 1)` is even, the natural-number division by 2 is exact and
`mkRat` yields exactly sum / (n(n-1)/2); `mkRat` is used instead of
rational division so that the definition evaluates by reduction. -/
def supportOf (m : Mat) (n : ℕ) : ℚ := mkRat (matSum m) (n * (n - 1) / 2)

/-- Column `c` of the data matrix (`attr_data[col]` after transposing). -/
def colOf (data : List (List ℚ)) (c : ℕ) : List ℚ := data.map (fun row => row.getD c 0)

/-- The raw pairwise comparison bitmap of one column
(`Dataset.init_gp_attributes`, step 2a):
strict mode is `col_data < col_data[:, np.newaxis]`, i.e.
entry (i,j) = (v_j < v_i); equality mode is `<=` with the diagonal
zeroed by `np.fill_diagonal(temp_pos, 0)`. -/
def binMatrix (vals : List ℚ) (eq : Bool) : Mat :=
  (List.range vals.length).map (fun i => (List.range vals.length).map (fun j =>
    if eq then decide (i ≠ j) && decide (vals.getD j 0 ≤ vals.getD i 0)
    else decide (vals.getD j 0 < vals.getD i 0)))

/-- One valid bin: a gradual item together with its bitmap
(a row `[incr.tolist(), temp_pos]` of `valid_bins`). -/
structure VBin where
  gi : GIb
  bm : Mat
deriving DecidableEq, Repr

/-- The 1-item valid-bin registry built by `Dataset.init_gp_attributes`
(`so4gp_pkg/so4gp.py`, lines 114-150, with `attr_data=None` so that
`n = attr_size = row_count`): for each attribute column, if the support
of the raw bitmap clears the threshold, append the increasing bin and,
unconditionally, its transpose as the decreasing bin; else append
nothing for that column. -/
def initGpAttributes (data : List (List ℚ)) (attrCols : List ℕ) (thd : ℚ) (eq : Bool) :
    List VBin :=
  attrCols.flatMap (fun c =>
    let tempPos := binMatrix (colOf data c) eq
    if thd ≤ supportOf tempPos data.length then
      [⟨(c, true), tempPos⟩, ⟨(c, false), transposeM tempPos⟩]
    else [])

/-- The `no_bins` flag: `if len(self.valid_bins) < 3: self.no_bins = True`. -/
def noBinsFlag (bins : List VBin) : Bool := decide (bins.length < 3)

/-- Rounding to three decimals (`GP.set_support`: `round(support, 3)`);
Python bankers rounding on binary floats is modelled as nearest-integer
(halves up) rounding on the exact rational: the numerator below is the
floor of `1000q + 1/2`, written with integer floor-division on the
numerator and denominator of `q` so that it evaluates by reduction. -/
def round3 (q : ℚ) : ℚ :=
  Rat.divInt (Int.fdiv (2000 * q.num + (q.den : ℤ)) (2 * (q.den : ℤ))) 1000

/-- A gradual pattern: item list plus support (class `GP`). -/
structure GPat where
  gis : List GIb
  support : ℚ
deriving DecidableEq, Repr

/-- Registry lookup of a gradual item's bin:
`np.argwhere(np.isin(d_set.valid_bins[:, 0], gi.gradual_item))` picks the
first row whose item equals `gi`. -/
def lookupBin (bins : List VBin) (g : GIb) : Option VBin :=
  bins.find? (fun b => decide (b.gi = g))

/-- Loop state of `validate_gp`: the pattern built so far (`gen_pattern`),
its support field, and the two-slot buffer `bin_arr` (`None` while the
buffer is still the empty `np.array([])`). -/
structure VState where
  genGis : List GIb
  genSup : ℚ
  binArr : Option (Mat × Mat)

/-- One iteration of the `for gi in pattern.gradual_items` loop of
`validate_gp` (`so4gp_pkg/so4gp.py`, lines 565-591; identical code in
`swarmgp_pkg/aco_gp.py`). -/
def validateStep (bins : List VBin) (thd : ℚ) (n : ℕ) (st : VState) (g : GIb) : VState :=
  match lookupBin bins g with
  | none => st
  | some vb =>
    match st.binArr with
    | none => ⟨st.genGis ++ [g], st.genSup, some (vb.bm, vb.bm)⟩
    | some (b0, _) =>
      let tempBin := matMul b0 vb.bm
      let supp := supportOf tempBin n
      if thd ≤ supp then ⟨st.genGis ++ [g], round3 supp, some (tempBin, vb.bm)⟩
      else ⟨st.genGis, st.genSup, some (b0, vb.bm)⟩

/-- `validate_gp(d_set, pattern)`: walk the candidate items, AND bitmaps
incrementally, and return the original pattern when at most one item
survived, else the newly built pattern. -/
def validate_gp (bins : List VBin) (thd : ℚ) (n : ℕ) (pat : GPat) : GPat :=
  let st := pat.gis.foldl (validateStep bins thd n) ⟨[], 0, none⟩
  if st.genGis.length ≤ 1 then pat else ⟨st.genGis, st.genSup⟩

/-- Canonical key of a gradual item, column-major with `+` before `-`;
injective, so key order is a linear order on gradual items. -/
def giKey (g : GIb) : ℕ := 2 * g.1 + (if g.2 then 0 else 1)

/-- Ordered insertion by `giKey`, dropping an already-present item:
the canonical-form builder for Python sets of gradual items. -/
def insertGI (g : GIb) : List GIb → List GIb
  | [] => [g]
  | h :: t =>
    if giKey g < giKey h then g :: h :: t
    else if giKey g = giKey h then h :: t
    else h :: insertGI g t

/-- Canonical (sorted, duplicate-free) form of a collection of gradual
items: the representation of `set(...)` in the Python source. -/
def giSet (l : List GIb) : List GIb := l.foldr insertGI []

/-- Union of two item sets (`gi_i | gi_j`). -/
def giUnion (a b : List GIb) : List GIb := giSet (a ++ b)

/-- Component-wise inverse set (`{GI.inv_arr(x) for x in gp_cand}`:
flipping each item's direction symbol, as `GI.inv` does). -/
def invGIs (l : List GIb) : List GIb := giSet (l.map (fun g => (g.1, !g.2)))

/-- The `repeated_attr` scan of `_gen_apriori_candidates`: start from -1,
fail as soon as an item has the same column as the one just seen. -/
def noRepeatGo : ℤ → List GIb → Bool
  | _, [] => true
  | r, k :: t => if (k.1 : ℤ) = r then false else noRepeatGo (k.1 : ℤ) t

/-- Whether the `test = 1` branch of the join is taken for a union. -/
def noRepeatAttr (l : List GIb) : Bool := noRepeatGo (-1) l

/-- One level-L entry handed to the Apriori join: item set, bitmap, and
support (the support field of level-1 rows is unused by the join). -/
structure GEntry where
  gis : List GIb
  bm : Mat
  sup : ℚ
deriving DecidableEq, Repr

/-- Default entry for out-of-range indexing. -/
def dEntry : GEntry := ⟨[], [], 0⟩

/-- Return value of `_gen_apriori_candidates`: a bare `[]` when fewer
than 2 bins are supplied, otherwise the pair
`(res, invalid_count)`. -/
inductive GenResult where
  | bare : GenResult
  | pair : List GEntry → ℕ → GenResult
deriving DecidableEq, Repr

/-- The index pairs (i, j), i < j, in the iteration order of the two
nested `for` loops. -/
def pairsList (len : ℕ) : List (ℕ × ℕ) :=
  (List.range len).flatMap (fun i => ((List.range len).filter (fun j => i < j)).map (fun j => (i, j)))

/-- Mutable state of the join loops: `res`, `all_candidates`,
`invalid_count`. -/
structure GenState where
  res : List GEntry
  allCands : List (List GIb)
  invalid : ℕ

/-- Body of the nested loops of `GRAANK._gen_apriori_candidates`
(`src/src/so4gp/so4gp.py`, lines 988-1025) for one index pair.  The
`repeated_attr` scan runs `for k in gp_cand` over a Python set whose
iteration order is hash-dependent and unspecified; `ord` supplies that
enumeration of the union (any permutation of its elements), while the
order-insensitive set operations (union, size, membership in
`all_candidates`) work on the canonical form. -/
def genStep (ord : List GIb → List GIb) (thd : ℚ) (n : ℕ) (giBins : List GEntry)
    (tc : Option ℕ) (ig : Bool) (st : GenState) (p : ℕ × ℕ) : GenState :=
  let giO := giSet (giBins.getD 0 dEntry).gis
  let gpCand := giUnion (giBins.getD p.1 dEntry).gis (giBins.getD p.2 dEntry).gis
  let invCand := invGIs gpCand
  let useTarget := match tc with
    | none => true
    | some t => gpCand.any (fun y => decide (y.1 = t))
  if useTarget = true ∧ gpCand.length = giO.length + 1 ∧
      gpCand ∉ st.allCands ∧ invCand ∉ st.allCands then
    if noRepeatAttr (ord gpCand) then
      let m := matMul (giBins.getD p.1 dEntry).bm (giBins.getD p.2 dEntry).bm
      let sup := supportOf m n
      if thd < sup ∨ ig = true then
        ⟨st.res ++ [⟨gpCand, m, sup⟩], st.allCands ++ [gpCand], st.invalid⟩
      else ⟨st.res, st.allCands ++ [gpCand], st.invalid + 1⟩
    else ⟨st.res, st.allCands ++ [gpCand], st.invalid⟩
  else st

/-- `GRAANK._gen_apriori_candidates(gi_bins, target_col, ignore_sup)`
with the set-iteration order of the `repeated_attr` scan exposed as the
parameter `ord` (Python's `for k in gp_cand` order is unspecified).
Returns the bare empty list when fewer than 2 bins are supplied,
otherwise the pair of the accepted candidate list and the invalid
count. -/
def genAprioriOrd (ord : List GIb → List GIb) (thd : ℚ) (n : ℕ) (giBins : List GEntry)
    (tc : Option ℕ) (ig : Bool) : GenResult :=
  if giBins.length < 2 then .bare
  else
    let fin := (pairsList giBins.length).foldl (genStep ord thd n giBins tc ig) ⟨[], [], 0⟩
    .pair fin.res fin.invalid

/-- The join when every union happens to be enumerated in its canonical
column order (`ord = id`).  The concrete runs below scan only 2-element
unions, on which every set-iteration order gives the same outcome, so
this instance is faithful for them. -/
def genApriori (thd : ℚ) (n : ℕ) (giBins : List GEntry) (tc : Option ℕ) (ig : Bool) :
    GenResult :=
  genAprioriOrd id thd n giBins tc ig

/-- One concrete hash order of the 3-element union {0+, 1+, 1-}: a
permutation of its canonical form in which the two column-1 items are
not adjacent.  Python set iteration order is hash-dependent (bytes
hashes are even randomized per process), so some such order of a
3-element set of (int, bytes) records is legitimate. -/
def badOrd (l : List GIb) : List GIb :=
  if l = [(0, true), (1, true), (1, false)] then [(1, true), (0, true), (1, false)] else l

/-- Candidate list carried by a join result (empty for the bare shape). -/
def resListOf : GenResult → List GEntry
  | .bare => []
  | .pair r _ => r

/-- Modelled from the spec: `ExtGP.remove_subsets` (its module
`gradual_patterns.py` is not part of the sources) — before adding a new
GP to the output set, remove any previously accepted GP whose item set
is a subset of the new one (spec section 4.2, subset pruning). -/
def removeSubsets (pats : List GPat) (giArr : List GIb) : List GPat :=
  pats.filter (fun g => !(g.gis.all (fun x => decide (x ∈ giArr))))

/-- Outcome of the level-wise loop of `GRAANK.discover`: normal
termination with the pattern list and invalid count, a `ValueError` from
unpacking the bare empty list into two variables, or exhausted fuel. -/
inductive MiningOutcome where
  | ok : List GPat → ℕ → MiningOutcome
  | unpackError : List GPat → MiningOutcome
  | fuelOut : MiningOutcome
deriving DecidableEq, Repr

/-- The `while len(valid_bins) > 0` loop of `GRAANK.discover`
(`src/src/so4gp/so4gp.py`, lines 1049-1070, with default
`ignore_support=False`, `apriori_level=None`).  Each new candidate
prunes previously collected subset patterns and is appended with its
rounded support (`gp.set_support(sup)`).  Unpacking
`valid_bins, inv_count = ...` of a bare empty list raises
`ValueError`. -/
def discoverLoop (thd : ℚ) (n : ℕ) :
    ℕ → List GEntry → List GPat → ℕ → MiningOutcome
  | 0, _, _, _ => .fuelOut
  | fuel + 1, validBins, pats, inv =>
    if validBins.length = 0 then .ok pats inv
    else
      match genApriori thd n validBins none false with
      | .bare => .unpackError pats
      | .pair newBins c =>
        let pats2 := newBins.foldl
          (fun acc e => removeSubsets acc e.gis ++ [⟨e.gis, round3 e.sup⟩]) pats
        discoverLoop thd n fuel newBins pats2 (inv + c)

/-- Level-1 row of the valid-bin registry as seen by the join
(`gi_bins[i][0]` a single item, `gi_bins[i][1]` its bitmap). -/
def toEntry (b : VBin) : GEntry := ⟨[b.gi], b.bm, 0⟩

/-- `GRAANK.discover` on a prepared data matrix: build the 1-item bins,
then run the level-wise Apriori loop. -/
def discoverRun (data : List (List ℚ)) (cols : List ℕ) (thd : ℚ) (eq : Bool)
    (fuel : ℕ) : MiningOutcome :=
  let bins := initGpAttributes data cols thd eq
  discoverLoop thd data.length fuel (bins.map toEntry) [] 0

/-- Little-endian binary digits with explicit fuel (sufficient whenever
`n` itself is supplied as fuel); kept fuel-based so that it computes by
kernel reduction. -/
def natBitsLEAux : ℕ → ℕ → List Bool
  | 0, _ => []
  | fuel + 1, n => if n = 0 then [] else decide (n % 2 = 1) :: natBitsLEAux fuel (n / 2)

/-- Little-endian binary digits of a natural number. -/
def natBitsLE (n : ℕ) : List Bool := natBitsLEAux n n

/-- `bin(int(position))[2:]` as a boolean list, most significant bit
first (`"0"` for position 0). -/
def binExpansion (p : ℕ) : List Bool :=
  if p = 0 then [false] else (natBitsLE p).reverse

/-- The scanning loop of `decode_gp`: index `i` runs over the bits; a
1-bit looks up `attr_keys[i]`, which raises `IndexError` (`none`) when
`i` is out of range; an in-range item is appended unless its column is
already present (`contains_attr`). -/
def decodeGo (keys : List GIb) : ℕ → List Bool → List GIb → Option (List GIb)
  | _, [], acc => some acc
  | i, b :: t, acc =>
    if b then
      match keys[i]? with
      | none => none
      | some g =>
        decodeGo keys (i + 1) t (if acc.any (fun x => decide (x.1 = g.1)) then acc else acc ++ [g])
    else decodeGo keys (i + 1) t acc

/-- `decode_gp(attr_keys, position)` (`so4gp_pkg/so4gp.py`, lines
847-861; same code as `NumericSS.decode_gp`): `None` decodes to the
empty pattern; otherwise scan the binary expansion of the truncated
position. `none` models the raised `IndexError`. -/
def decode_gp (keys : List GIb) (position : Option ℕ) : Option GPat :=
  match position with
  | none => some ⟨[], 0⟩
  | some p =>
    match decodeGo keys 0 (binExpansion p) [] with
    | none => none
    | some gis => some ⟨gis, 0⟩

/-- The selection described by the spec for `decode_gp`: same scan, but
an index beyond the keys list is ignored instead of failing. -/
def selectSpec (keys : List GIb) : ℕ → List Bool → List GIb → List GIb
  | _, [], acc => acc
  | i, b :: t, acc =>
    if b then
      match keys[i]? with
      | none => selectSpec keys (i + 1) t acc
      | some g =>
        selectSpec keys (i + 1) t (if acc.any (fun x => decide (x.1 = g.1)) then acc else acc ++ [g])
    else selectSpec keys (i + 1) t acc

/-- Outcome of the opening lines of `run_genetic_algorithm`
(`so4gp_pkg/so4gp.py`, lines 650-658). -/
inductive GAOutcome where
  | indexError : GAOutcome
  | emptyResult : GAOutcome
  | proceeds : List GIb → GAOutcome
deriving DecidableEq, Repr

/-- The entry sequence of `run_genetic_algorithm`: after
`init_gp_attributes`, the line
`attr_keys = [GI(x[0], x[1].decode()).as_string() for x in d_set.valid_bins[:, 0]]`
runs first; on an empty registry `self.valid_bins = np.array([])` is a
1-D array of shape (0,), so the two-dimensional index `[:, 0]` raises
`IndexError`.  Only afterwards does `if d_set.no_bins: return []`
run. -/
def run_genetic_algorithm_start (data : List (List ℚ)) (cols : List ℕ) (thd : ℚ)
    (eq : Bool) : GAOutcome :=
  let bins := initGpAttributes data cols thd eq
  if bins.length = 0 then .indexError
  else if noBinsFlag bins then .emptyResult
  else .proceeds (bins.map VBin.gi)

/-- The greedy acceptance walk described by the spec for `validate_gp`:
the first matched item is accepted unconditionally; each subsequent item
is accepted exactly when ANDing its bitmap into the working bitmap keeps
the support at or above the threshold. -/
def specWalk (bins : List VBin) (thd : ℚ) (n : ℕ) : Option Mat → List GIb → List GIb
  | _, [] => []
  | work, g :: t =>
    match lookupBin bins g with
    | none => specWalk bins thd n work t
    | some vb =>
      match work with
      | none => g :: specWalk bins thd n (some vb.bm) t
      | some w =>
        let m := matMul w vb.bm
        if thd ≤ supportOf m n then g :: specWalk bins thd n (some m) t
        else specWalk bins thd n (some w) t

/-- One step of ANDing a looked-up bitmap into an optional working
bitmap. -/
def andBStep (bins : List VBin) (acc : Option Mat) (g : GIb) : Option Mat :=
  match lookupBin bins g with
  | none => acc
  | some vb =>
    match acc with
    | none => some vb.bm
    | some w => some (matMul w vb.bm)

/-- The AND of the registry bitmaps of a list of items, in order. -/
def andBitmapsAcc (bins : List VBin) (gis : List GIb) : Option Mat :=
  gis.foldl (andBStep bins) none

/-- The behaviour stated by the spec for `validate_gp`: if at most one
item survives the greedy walk, the original candidate pattern is
returned unchanged; otherwise a new pattern holding exactly the accepted
items, with the recomputed (rounded) support of their combined
bitmap. -/
def validateSpecModel (bins : List VBin) (thd : ℚ) (n : ℕ) (pat : GPat) : GPat :=
  let acc := specWalk bins thd n none pat.gis
  if acc.length ≤ 1 then pat
  else ⟨acc, round3 (supportOf ((andBitmapsAcc bins acc).getD []) n)⟩

/-- The 5-row running example of the spec and of the doctests:
columns Age, Salary, Cars, Expenses. -/
def data5 : List (List ℚ) := [[30,3,1,10],[35,2,2,8],[40,4,2,7],[50,1,1,6],[52,7,1,2]]

/-- Valid bins of the running example at minimum support 0.5, strict
comparison. -/
def bins05 : List VBin := initGpAttributes data5 [0, 1, 2, 3] (mkRat 1 2) false

/-- Valid bins of the running example at minimum support 0.9. -/
def bins09 : List VBin := initGpAttributes data5 [0, 1, 2, 3] (mkRat 9 10) false

/-- Same greedy walk as `specWalk`, additionally carrying the working
bitmap and the last committed (rounded) support, mirroring the mutable
state of `validate_gp`. -/
def specWalk3 (bins : List VBin) (thd : ℚ) (n : ℕ) :
    Option Mat → ℚ → List GIb → List GIb × Option Mat × ℚ
  | w, s, [] => ([], w, s)
  | w, s, g :: t =>
    match lookupBin bins g with
    | none => specWalk3 bins thd n w s t
    | some vb =>
      match w with
      | none =>
        let r := specWalk3 bins thd n (some vb.bm) s t
        (g :: r.1, r.2)
      | some wm =>
        let m := matMul wm vb.bm
        if thd ≤ supportOf m n then
          let r := specWalk3 bins thd n (some m) (round3 (supportOf m n)) t
          (g :: r.1, r.2)
        else specWalk3 bins thd n (some wm) s t

/-- AND of the registry bitmaps of the given items into an initial
working bitmap, skipping items without a registry entry. -/
def andFromW (bins : List VBin) (w : Mat) (gis : List GIb) : Mat :=
  gis.foldl (fun m g =>
    match lookupBin bins g with
    | none => m
    | some vb => matMul m vb.bm) w

set_option maxRecDepth 100000 in
/-- Claim C1: for the 5-row matrix over (Age, Salary, Cars, Expenses)
with minimum support 0.5 and strict comparison, bitmap construction
yields valid bins for Age-increasing and Expenses-decreasing, each with
support 1, and the level-2 Apriori join emits the candidate
(Age+, Expenses-) with support 1 among its outputs. -/
theorem C1_concrete_scenario :
    (∃ e ∈ bins05, e.gi = ((0 : ℕ), true) ∧ supportOf e.bm 5 = 1) ∧
    (∃ e ∈ bins05, e.gi = ((3 : ℕ), false) ∧ supportOf e.bm 5 = 1) ∧
    (∃ c ∈ resListOf (genApriori (mkRat 1 2) 5 (bins05.map toEntry) none false),
      c.gis = [((0 : ℕ), true), ((3 : ℕ), false)] ∧ c.sup = 1) := by decide

set_option maxRecDepth 100000 in
/-- Claim C5, counterexample: a dataset (one strictly increasing column)
producing exactly 2 valid bins — not fewer than 2 — for which the
`no_bins` flag is nevertheless signalled, because the code tests
`len(valid_bins) < 3`, not `< 2`. -/
theorem C5_counterexample :
    (initGpAttributes [[1], [2]] [0] (mkRat 1 2) false).length = 2 ∧
    noBinsFlag (initGpAttributes [[1], [2]] [0] (mkRat 1 2) false) = true := by decide

set_option maxRecDepth 100000 in
/-- Claim C6, counterexample: with the equality-allowed comparison and a
tied column [1, 1], both off-diagonal entries of the bitmap are set, so
the first produced bin has support 2/1 = 2, outside [0, 1]. -/
theorem C6_counterexample :
    ((initGpAttributes [[1], [1]] [0] (mkRat 1 2) true).getD 0 ⟨(0, true), []⟩) ∈
        initGpAttributes [[1], [1]] [0] (mkRat 1 2) true ∧
    supportOf ((initGpAttributes [[1], [1]] [0] (mkRat 1 2) true).getD 0 ⟨(0, true), []⟩).bm 2 = 2 := by
  decide

/-- Claim C7, counterexample: decoding position 3 (bit length 2) against
a single-key list does not return a pattern: the 1-bit at index 1 is
beyond the key list and the lookup `attr_keys[1]` raises `IndexError`
(modelled by `none`), instead of being ignored. -/
theorem C7_counterexample : decode_gp [((0 : ℕ), true)] (some 3) = none := by decide

set_option maxRecDepth 100000 in
/-- Claim C8: on a dataset whose only column is constant, no bin clears
the threshold, the registry is empty, and `run_genetic_algorithm`
crashes with `IndexError` on `d_set.valid_bins[:, 0]` before the
`no_bins` guard can return the empty list. -/
theorem C8_zero_bins_crash :
    initGpAttributes [[1], [1], [1]] [0] (mkRat 1 2) false = [] ∧
    run_genetic_algorithm_start [[1], [1], [1]] [0] (mkRat 1 2) false = GAOutcome.indexError := by
  decide

set_option maxRecDepth 100000 in
/-- Claim C9, counterexample: at minimum support 0.9 on the same 5-row
matrix, mining does not yield zero patterns without error: the pair
(Age+, Expenses-) clears the bar with support 1, and the run then stops
with the `ValueError` of unpacking the bare empty list, holding that one
pattern. -/
theorem C9_counterexample :
    discoverRun data5 [0, 1, 2, 3] (mkRat 9 10) false 5 =
      MiningOutcome.unpackError [⟨[((0 : ℕ), true), ((3 : ℕ), false)], 1⟩] := by decide

set_option maxRecDepth 100000 in
/-- Claim C9, amended: at minimum support 0.9 the level-2 join emits
exactly the candidate (Age+, Expenses-) with support 1, and the
level-wise loop of `discover` then terminates with an unpacking
`ValueError` (the next level receives a single candidate), its pattern
list holding that one pattern. -/
theorem C9_amended_run :
    (∃ c ∈ resListOf (genApriori (mkRat 9 10) 5 (bins09.map toEntry) none false),
      c.gis = [((0 : ℕ), true), ((3 : ℕ), false)] ∧ c.sup = 1) ∧
    discoverRun data5 [0, 1, 2, 3] (mkRat 9 10) false 5 =
      MiningOutcome.unpackError [⟨[((0 : ℕ), true), ((3 : ℕ), false)], 1⟩] := by decide

/-- Claim C10: `_gen_apriori_candidates` returns a bare empty list for
fewer than 2 input bins and a (candidates, invalid count) pair
otherwise; consequently a level that ends with exactly one supported
candidate makes the next iteration of the `discover` loop fail in the
two-value unpacking instead of terminating normally. -/
theorem C10_return_shapes :
    (∀ (thd : ℚ) (n : ℕ) (bins : List GEntry) (tc : Option ℕ) (ig : Bool),
      bins.length < 2 → genApriori thd n bins tc ig = GenResult.bare) ∧
    (∀ (thd : ℚ) (n : ℕ) (bins : List GEntry) (tc : Option ℕ) (ig : Bool),
      2 ≤ bins.length → ∃ r c, genApriori thd n bins tc ig = GenResult.pair r c) ∧
    (∀ (thd : ℚ) (n fuel : ℕ) (bins : List GEntry) (pats : List GPat) (inv : ℕ),
      bins.length = 1 →
      discoverLoop thd n (fuel + 1) bins pats inv = MiningOutcome.unpackError pats) := by
  refine ⟨?_, ?_, ?_⟩
  · intro thd n bins tc ig h
    simp [genApriori, genAprioriOrd, if_pos h]
  · intro thd n bins tc ig h
    rw [genApriori, genAprioriOrd, if_neg (by omega)]
    exact ⟨_, _, rfl⟩
  · intro thd n fuel bins pats inv h
    rw [discoverLoop, if_neg (by omega)]
    have hb : genApriori thd n bins none false = GenResult.bare := by
      rw [genApriori, genAprioriOrd, if_pos (by omega)]
    rw [hb]

/-- Witness for C10 at concrete inputs. -/
theorem C10_return_shapes_witness :
    genApriori 0 2 [] none false = GenResult.bare ∧
    (∃ r c, genApriori 0 2 [dEntry, dEntry] none false = GenResult.pair r c) ∧
    discoverLoop 0 2 1 [dEntry] [] 0 = MiningOutcome.unpackError [] :=
  ⟨C10_return_shapes.1 0 2 [] none false (by decide),
   C10_return_shapes.2.1 0 2 [dEntry, dEntry] none false (by decide),
   C10_return_shapes.2.2 0 2 0 [dEntry] [] 0 (by decide)⟩

/-- Number of bins produced: two per column that clears the support
threshold. -/
theorem initGp_length (data : List (List ℚ)) (cols : List ℕ) (thd : ℚ) (eq : Bool) :
    (initGpAttributes data cols thd eq).length =
      2 * cols.countP (fun c =>
        decide (thd ≤ supportOf (binMatrix (colOf data c) eq) data.length)) := by
  induction cols with
  | nil => rfl
  | cons c t ih =>
    rw [initGpAttributes, List.flatMap_cons, List.length_append, List.countP_cons,
      ← initGpAttributes, ih]
    by_cases h : thd ≤ supportOf (binMatrix (colOf data c) eq) data.length
    · simp only [if_pos h, decide_eq_true h]
      simp; omega
    · simp only [if_neg h]
      simp [h]

/-- Claim C5, amended: the `no_bins` flag is signalled iff fewer than 2
columns clear the support threshold — equivalently, iff fewer than 3
valid bins result (each valid column contributes exactly 2 bins, so this
also means fewer than 4 bins, i.e. at most one valid column); with 2 or
more valid columns mining proceeds. -/
theorem C5_amended_no_bins_iff (data : List (List ℚ)) (cols : List ℕ) (thd : ℚ) (eq : Bool) :
    noBinsFlag (initGpAttributes data cols thd eq) = true ↔
      cols.countP (fun c =>
        decide (thd ≤ supportOf (binMatrix (colOf data c) eq) data.length)) < 2 := by
  rw [noBinsFlag, decide_eq_true_iff, initGp_length]
  omega

/-- Claim C3: for every attribute column, bitmap construction appends
either both directions or neither: when the raw bitmap clears the single
shared support test, the increasing bin and its matrix transpose as the
decreasing bin are both present; when it fails, no bin of that column is
present in either direction; and every bin carrying column `c` is
exactly the raw bitmap (`+`) or its transpose (`-`). -/
theorem C3_both_directions_or_neither (data : List (List ℚ)) (cols : List ℕ) (thd : ℚ)
    (eq : Bool) (c : ℕ) :
    (c ∈ cols → thd ≤ supportOf (binMatrix (colOf data c) eq) data.length →
      (⟨(c, true), binMatrix (colOf data c) eq⟩ : VBin) ∈ initGpAttributes data cols thd eq ∧
      (⟨(c, false), transposeM (binMatrix (colOf data c) eq)⟩ : VBin) ∈
        initGpAttributes data cols thd eq) ∧
    (supportOf (binMatrix (colOf data c) eq) data.length < thd →
      ∀ e ∈ initGpAttributes data cols thd eq, e.gi.1 ≠ c) ∧
    (∀ e ∈ initGpAttributes data cols thd eq, e.gi.1 = c →
      (e.gi.2 = true → e.bm = binMatrix (colOf data c) eq) ∧
      (e.gi.2 = false → e.bm = transposeM (binMatrix (colOf data c) eq))) := by
  refine ⟨?_, ?_, ?_⟩
  · intro hc hs
    constructor
    · refine List.mem_flatMap.2 ⟨c, hc, ?_⟩
      simp only [if_pos hs]
      exact List.mem_cons_self _ _
    · refine List.mem_flatMap.2 ⟨c, hc, ?_⟩
      simp only [if_pos hs]
      exact List.mem_cons_of_mem _ (List.mem_cons_self _ _)
  · intro hs e he
    obtain ⟨c2, _, he2⟩ := List.mem_flatMap.1 he
    by_cases h2 : thd ≤ supportOf (binMatrix (colOf data c2) eq) data.length
    · simp only [if_pos h2] at he2
      simp only [List.mem_cons, List.not_mem_nil, or_false] at he2
      rcases he2 with h | h
      · subst h; intro h; exact absurd (h ▸ h2) (not_le.2 hs)
      · subst h; intro h; exact absurd (h ▸ h2) (not_le.2 hs)
    · simp only [if_neg h2] at he2
      cases he2
  · intro e he hcol
    obtain ⟨c2, _, he2⟩ := List.mem_flatMap.1 he
    by_cases h2 : thd ≤ supportOf (binMatrix (colOf data c2) eq) data.length
    · simp only [if_pos h2] at he2
      simp only [List.mem_cons, List.not_mem_nil, or_false] at he2
      rcases he2 with h | h
      · subst h
        simp only at hcol
        subst hcol
        exact ⟨fun _ => rfl, fun h => Bool.noConfusion h⟩
      · subst h
        simp only at hcol
        subst hcol
        exact ⟨fun h => Bool.noConfusion h, fun _ => rfl⟩
    · simp only [if_neg h2] at he2
      cases he2

/-- Witness for C3 on the running example: column 0 at threshold 0.5
(both bins present, the decreasing one the transpose), and column 0 at
threshold 2 (no bin in either direction). -/
theorem C3_witness :
    ((⟨(0, true), binMatrix (colOf data5 0) false⟩ : VBin) ∈ bins05 ∧
     (⟨(0, false), transposeM (binMatrix (colOf data5 0) false)⟩ : VBin) ∈ bins05) ∧
    (∀ e ∈ initGpAttributes data5 [0, 1, 2, 3] 2 false, e.gi.1 ≠ 0) :=
  ⟨(C3_both_directions_or_neither data5 [0, 1, 2, 3] (mkRat 1 2) false 0).1
      (by decide) (by decide),
   (C3_both_directions_or_neither data5 [0, 1, 2, 3] 2 false 0).2.1 (by decide)⟩

/-- Insertion only adds the inserted item. -/
theorem mem_insertGI (x g : GIb) : ∀ (l : List GIb), x ∈ insertGI g l → x = g ∨ x ∈ l := by
  intro l
  induction l with
  | nil => intro h; rw [insertGI] at h; exact Or.inl (List.mem_singleton.1 h)
  | cons h1 t ih =>
    intro hx
    rw [insertGI] at hx
    split_ifs at hx with hlt heq
    · rcases List.mem_cons.1 hx with h | h
      · exact Or.inl h
      · exact Or.inr h
    · exact Or.inr hx
    · rcases List.mem_cons.1 hx with h | h
      · exact Or.inr (List.mem_cons.2 (Or.inl h))
      · rcases ih h with h2 | h2
        · exact Or.inl h2
        · exact Or.inr (List.mem_cons.2 (Or.inr h2))

/-- Insertion preserves strict sortedness by canonical key. -/
theorem pairwise_insertGI (g : GIb) : ∀ (l : List GIb),
    l.Pairwise (fun a b => giKey a < giKey b) →
    (insertGI g l).Pairwise (fun a b => giKey a < giKey b) := by
  intro l
  induction l with
  | nil => intro _; simp [insertGI]
  | cons h1 t ih =>
    intro hp
    rw [List.pairwise_cons] at hp
    obtain ⟨ha, hp2⟩ := hp
    rw [insertGI]
    split_ifs with hlt heq
    · rw [List.pairwise_cons]
      refine ⟨?_, List.pairwise_cons.2 ⟨ha, hp2⟩⟩
      intro b hb
      rcases List.mem_cons.1 hb with h | h
      · exact h ▸ hlt
      · exact Nat.lt_trans hlt (ha b h)
    · exact List.pairwise_cons.2 ⟨ha, hp2⟩
    · rw [List.pairwise_cons]
      refine ⟨?_, ih hp2⟩
      intro b hb
      rcases mem_insertGI b g _ hb with h | h
      · subst h; omega
      · exact ha b h

/-- The canonical form of any item collection is strictly sorted by
canonical key. -/
theorem giSet_pairwise (l : List GIb) :
    (giSet l).Pairwise (fun a b => giKey a < giKey b) := by
  induction l with
  | nil => simp [giSet]
  | cons a t ih => exact pairwise_insertGI a (giSet t) ih

/-- A passing `repeated_attr` scan means no two adjacent items share a
column. -/
theorem noRepeatGo_chain : ∀ (l : List GIb) (r : ℤ), noRepeatGo r l = true →
    List.Chain' (fun a b : GIb => a.1 ≠ b.1) l := by
  intro l
  induction l with
  | nil => intro r _; exact List.chain'_nil
  | cons a t ih =>
    intro r h
    have hrec : noRepeatGo (a.1 : ℤ) t = true := by
      simp only [noRepeatGo] at h
      by_cases he : (a.1 : ℤ) = r
      · rw [if_pos he] at h; cases h
      · rwa [if_neg he] at h
    cases t with
    | nil => simp
    | cons b t2 =>
      rw [List.chain'_cons]
      refine ⟨?_, ih _ hrec⟩
      have h2 := hrec
      simp only [noRepeatGo] at h2
      by_cases he2 : (b.1 : ℤ) = (a.1 : ℤ)
      · rw [if_pos he2] at h2; cases h2
      · intro hC
        exact he2 (by exact_mod_cast hC.symm)

/-- Key order implies column order. -/
theorem giKey_lt_col_le {a b : GIb} (h : giKey a < giKey b) : a.1 ≤ b.1 := by
  rcases a with ⟨ca, da⟩
  rcases b with ⟨cb, db⟩
  rw [giKey, giKey] at h
  cases da <;> cases db <;> simp at h <;> omega

/-- On a key-sorted list, adjacent-distinct columns are pairwise
distinct. -/
theorem sorted_norepeat_cols : ∀ l : List GIb,
    l.Pairwise (fun a b => giKey a < giKey b) →
    List.Chain' (fun a b : GIb => a.1 ≠ b.1) l →
    l.Pairwise (fun a b : GIb => a.1 ≠ b.1) := by
  intro l
  induction l with
  | nil => intro _ _; exact List.Pairwise.nil
  | cons a t ih =>
    intro hp hc
    rw [List.pairwise_cons] at hp
    obtain ⟨ha, hp2⟩ := hp
    rw [List.pairwise_cons]
    refine ⟨?_, ih hp2 hc.tail⟩
    intro b hb
    cases t with
    | nil => cases hb
    | cons b0 t2 =>
      have hne : a.1 ≠ b0.1 := (List.chain'_cons.1 hc).1
      have hle : a.1 ≤ b0.1 := giKey_lt_col_le (ha b0 (List.mem_cons_self b0 t2))
      rcases List.mem_cons.1 hb with h | h
      · subst h; exact hne
      · rw [List.pairwise_cons] at hp2
        have := giKey_lt_col_le (hp2.1 b h)
        omega

/-- A permutation of a 2-element list of distinct items is that list or
its reversal. -/
theorem perm_pair_cases {a b : GIb} (l : List GIb) (h : l.Perm [a, b]) (hne : a ≠ b) :
    l = [a, b] ∨ l = [b, a] := by
  have hlen : l.length = 2 := by rw [h.length_eq]; rfl
  obtain ⟨x, y, hxy⟩ : ∃ x y, l = [x, y] := by
    cases l with
    | nil => cases hlen
    | cons x t =>
      cases t with
      | nil => simp at hlen
      | cons y t2 =>
        cases t2 with
        | nil => exact ⟨x, y, rfl⟩
        | cons z t3 => simp at hlen
  subst hxy
  have hx : x ∈ ([a, b] : List GIb) := h.mem_iff.1 (by simp)
  have hb2 : b ∈ ([x, y] : List GIb) := h.mem_iff.2 (by simp)
  have ha2 : a ∈ ([x, y] : List GIb) := h.mem_iff.2 (by simp)
  simp only [List.mem_cons, List.not_mem_nil, or_false] at hx hb2 ha2
  rcases hx with h1 | h1
  · subst h1
    rcases hb2 with h2 | h2
    · exact absurd h2.symm hne
    · subst h2; exact Or.inl rfl
  · subst h1
    rcases ha2 with h2 | h2
    · exact absurd h2 hne
    · subst h2; exact Or.inr rfl

/-- Every candidate appended by one join step has the size forced by the
union-length test, a canonically sorted item list, and a passing
adjacent-repeat scan in the supplied iteration order. -/
theorem genStep_res_mem (ord : List GIb → List GIb) (thd : ℚ) (n : ℕ) (bins : List GEntry)
    (tc : Option ℕ) (ig : Bool) (st : GenState) (p : ℕ × ℕ) :
    ∀ c ∈ (genStep ord thd n bins tc ig st p).res,
      c ∈ st.res ∨
      (c.gis.length = (giSet (bins.getD 0 dEntry).gis).length + 1 ∧
       c.gis.Pairwise (fun a b => giKey a < giKey b) ∧
       noRepeatAttr (ord c.gis) = true) := by
  intro c hc
  simp only [genStep] at hc
  split_ifs at hc with h1 h2 h3
  · rcases List.mem_append.1 hc with h | h
    · exact Or.inl h
    · right
      have hce := List.mem_singleton.1 h
      subst hce
      exact ⟨h1.2.1, giSet_pairwise _, h2⟩
  · exact Or.inl hc
  · exact Or.inl hc
  · exact Or.inl hc

/-- Folding join steps preserves any property of all collected
candidates that each step's new candidates satisfy. -/
theorem foldl_genStep_inv (ord : List GIb → List GIb) (thd : ℚ) (n : ℕ)
    (bins : List GEntry) (tc : Option ℕ) (ig : Bool) :
    ∀ (ps : List (ℕ × ℕ)) (st : GenState),
      (∀ c ∈ st.res,
        c.gis.length = (giSet (bins.getD 0 dEntry).gis).length + 1 ∧
        c.gis.Pairwise (fun a b => giKey a < giKey b) ∧
        noRepeatAttr (ord c.gis) = true) →
      ∀ c ∈ (ps.foldl (genStep ord thd n bins tc ig) st).res,
        c.gis.length = (giSet (bins.getD 0 dEntry).gis).length + 1 ∧
        c.gis.Pairwise (fun a b => giKey a < giKey b) ∧
        noRepeatAttr (ord c.gis) = true := by
  intro ps
  induction ps with
  | nil => intro st hst c hc; exact hst c hc
  | cons p ps ih =>
    intro st hst c hc
    rw [List.foldl_cons] at hc
    refine ih _ ?_ c hc
    intro c2 hc2
    rcases genStep_res_mem ord thd n bins tc ig st p c2 hc2 with h | h
    · exact hst c2 h
    · exact h

set_option maxRecDepth 100000 in
/-- Claim C2, counterexample: the duplicate-column rejection is only an
adjacent-repeat scan over the set's iteration order.  `badOrd` is a
legitimate enumeration (a permutation) of the level-3 union
{0+, 1+, 1-} built from the level-2 bins {0+, 1+} and {0+, 1-}; it
passes the `len == L+1` test and, with the two column-1 items not
adjacent, the `repeated_attr` scan as well, so the join emits a
candidate carrying two gradual items on the same column. -/
theorem C2_counterexample :
    (badOrd [((0 : ℕ), true), ((1 : ℕ), true), ((1 : ℕ), false)]).Perm
      [((0 : ℕ), true), ((1 : ℕ), true), ((1 : ℕ), false)] ∧
    (∃ c ∈ resListOf (genAprioriOrd badOrd (mkRat 1 2) 2
        [⟨[((0 : ℕ), true), ((1 : ℕ), true)], [[false, false], [true, false]], 0⟩,
         ⟨[((0 : ℕ), true), ((1 : ℕ), false)], [[false, false], [true, false]], 0⟩]
        none false),
      c.gis = [((0 : ℕ), true), ((1 : ℕ), true), ((1 : ℕ), false)] ∧
      ((1 : ℕ), true) ∈ c.gis ∧ ((1 : ℕ), false) ∈ c.gis ∧
      ¬ c.gis.Pairwise (fun a b : GIb => a.1 ≠ b.1)) := by decide

/-- Claim C2, amended: for every set-iteration order (any enumeration
`ord` of each union) and every input list of level-L bins, every emitted
candidate has exactly L+1 gradual items and passed the adjacent-repeat
scan in the order actually iterated; the columns are guaranteed pairwise
distinct whenever that iterated order places same-column items
adjacently — in particular always in the level-1 join (2-element
unions, under every order) and whenever the union is enumerated in
column order — but not in general at higher levels. -/
theorem C2_amended_join_guarantees (ord : List GIb → List GIb) (thd : ℚ) (n : ℕ)
    (bins : List GEntry) (tc : Option ℕ) (ig : Bool) (L : ℕ) (res : List GEntry) (cnt : ℕ)
    (hord : ∀ l, (ord l).Perm l)
    (hL : ∀ e ∈ bins, (giSet e.gis).length = L)
    (hres : genAprioriOrd ord thd n bins tc ig = GenResult.pair res cnt) :
    ∀ c ∈ res,
      c.gis.length = L + 1 ∧
      noRepeatAttr (ord c.gis) = true ∧
      (noRepeatAttr c.gis = true → c.gis.Pairwise (fun a b : GIb => a.1 ≠ b.1)) ∧
      (L = 1 → c.gis.Pairwise (fun a b : GIb => a.1 ≠ b.1)) := by
  by_cases hlen : bins.length < 2
  · rw [genAprioriOrd, if_pos hlen] at hres
    cases hres
  · rw [genAprioriOrd, if_neg hlen] at hres
    injection hres with hr hc
    subst hr
    have h0 : bins.getD 0 dEntry ∈ bins := by
      cases bins with
      | nil => simp at hlen
      | cons b t => exact List.mem_cons_self b t
    have hL0 : (giSet (bins.getD 0 dEntry).gis).length = L := hL _ h0
    intro c hcm
    obtain ⟨hlen1, hsorted, hscan⟩ :=
      foldl_genStep_inv ord thd n bins tc ig (pairsList bins.length) ⟨[], [], 0⟩
        (by intro c2 hc2; cases hc2) c hcm
    rw [hL0] at hlen1
    refine ⟨hlen1, hscan, ?_, ?_⟩
    · intro hid
      exact sorted_norepeat_cols _ hsorted (noRepeatGo_chain _ _ hid)
    · intro hL1
      subst hL1
      obtain ⟨a, b, hab⟩ : ∃ a b, c.gis = [a, b] := by
        cases hg : c.gis with
        | nil => rw [hg] at hlen1; cases hlen1
        | cons a t =>
          cases t with
          | nil => rw [hg] at hlen1; simp at hlen1
          | cons b t2 =>
            cases t2 with
            | nil => exact ⟨a, b, rfl⟩
            | cons z t3 => rw [hg] at hlen1; simp at hlen1
      rw [hab] at hsorted hscan ⊢
      have hkey : giKey a < giKey b := (List.pairwise_cons.1 hsorted).1 b (by simp)
      have hne : a ≠ b := by
        intro h
        rw [h] at hkey
        exact lt_irrefl _ hkey
      rcases perm_pair_cases (ord [a, b]) (hord [a, b]) hne with ho | ho
      · rw [ho] at hscan
        have hcols : a.1 ≠ b.1 := (List.chain'_cons.1 (noRepeatGo_chain [a, b] (-1) hscan)).1
        refine List.pairwise_cons.2 ⟨?_, by simp⟩
        intro x hx
        rw [List.mem_singleton.1 hx]
        exact hcols
      · rw [ho] at hscan
        have hcols : b.1 ≠ a.1 := (List.chain'_cons.1 (noRepeatGo_chain [b, a] (-1) hscan)).1
        refine List.pairwise_cons.2 ⟨?_, by simp⟩
        intro x hx
        rw [List.mem_singleton.1 hx]
        exact hcols.symm

/-- Witness for C2 amended: the identity order (every union already
canonical) on two singleton bins; the emitted candidate has 1+1 items,
its scan passed, and its columns are distinct. -/
theorem C2_amended_join_guarantees_witness :
    ([((0 : ℕ), true), ((1 : ℕ), true)] : List GIb).length = 1 + 1 ∧
    noRepeatAttr (id ([((0 : ℕ), true), ((1 : ℕ), true)] : List GIb)) = true ∧
    ([((0 : ℕ), true), ((1 : ℕ), true)] : List GIb).Pairwise (fun a b : GIb => a.1 ≠ b.1) := by
  have h := C2_amended_join_guarantees id 0 2
    [⟨[(0, true)], [[false, false], [true, false]], 0⟩,
     ⟨[(1, true)], [[false, false], [true, false]], 0⟩] none true 1
    [⟨[((0 : ℕ), true), ((1 : ℕ), true)], [[false, false], [true, false]], 1⟩] 0
    (fun l => List.Perm.refl l) (by decide) (by decide)
    ⟨[((0 : ℕ), true), ((1 : ℕ), true)], [[false, false], [true, false]], 1⟩ (by decide)
  exact ⟨h.1, h.2.1, h.2.2.2 rfl⟩

/-- When every 1-bit of the remaining scan is in range of the key list,
the decoding loop succeeds and agrees with the ignore-out-of-range
selection. -/
theorem decodeGo_ok (keys : List GIb) : ∀ (t : List Bool) (i : ℕ) (acc : List GIb),
    (∀ k, k < t.length → t.getD k false = true → i + k < keys.length) →
    decodeGo keys i t acc = some (selectSpec keys i t acc) := by
  intro t
  induction t with
  | nil => intro i acc _; rfl
  | cons b t2 ih =>
    intro i acc hk
    cases b with
    | false =>
      simp only [decodeGo, selectSpec, Bool.false_eq_true, if_false]
      refine ih (i + 1) acc ?_
      intro k hk2 hb
      have := hk (k + 1) (by simpa using Nat.succ_lt_succ hk2) (by simpa using hb)
      omega
    | true =>
      have h0 : i < keys.length := by
        have := hk 0 (by simp) (by simp)
        omega
      have hg : keys[i]? = some (keys.get ⟨i, h0⟩) := List.getElem?_eq_getElem h0
      simp only [decodeGo, selectSpec, if_true, hg]
      refine ih (i + 1) _ ?_
      intro k hk2 hb
      have := hk (k + 1) (by simpa using Nat.succ_lt_succ hk2) (by simpa using hb)
      omega

/-- A 1-bit beyond the key list makes the decoding loop fail
(`IndexError`). -/
theorem decodeGo_fail (keys : List GIb) : ∀ (t : List Bool) (i : ℕ) (acc : List GIb),
    (∃ k, k < t.length ∧ t.getD k false = true ∧ keys.length ≤ i + k) →
    decodeGo keys i t acc = none := by
  intro t
  induction t with
  | nil =>
    intro i acc h
    obtain ⟨k, hk, _, _⟩ := h
    simp at hk
  | cons b t2 ih =>
    intro i acc h
    obtain ⟨k, hk, hb, hge⟩ := h
    cases k with
    | zero =>
      have hbt : b = true := by simpa using hb
      subst hbt
      have hnone : keys[i]? = none := List.getElem?_eq_none (by omega)
      simp [decodeGo, hnone]
    | succ k2 =>
      cases b with
      | false =>
        simp only [decodeGo, Bool.false_eq_true, if_false]
        exact ih (i + 1) acc ⟨k2, by simpa using hk, by simpa using hb, by omega⟩
      | true =>
        cases hg : keys[i]? with
        | none => simp [decodeGo, hg]
        | some g =>
          simp only [decodeGo, hg, if_true]
          exact ih (i + 1) _ ⟨k2, by simpa using hk, by simpa using hb, by omega⟩

/-- Claim C7, amended: decode scans the natural-width binary expansion
most-significant-first and includes key i for each 1-bit whose index is
in range of the key list (first direction per column wins); when every
1-bit index is in range the decoded pattern is returned — but a 1-bit at
an index beyond the key list raises `IndexError` (`none`) instead of
being ignored, so positions whose bit length exceeds the number of keys
succeed only when all their out-of-range bits are 0. -/
theorem C7_amended_decode (keys : List GIb) (p : ℕ) :
    ((∀ k, k < (binExpansion p).length → (binExpansion p).getD k false = true →
        k < keys.length) →
      decode_gp keys (some p) = some ⟨selectSpec keys 0 (binExpansion p) [], 0⟩) ∧
    ((∃ k, k < (binExpansion p).length ∧ (binExpansion p).getD k false = true ∧
        keys.length ≤ k) →
      decode_gp keys (some p) = none) := by
  constructor
  · intro h
    have hok := decodeGo_ok keys (binExpansion p) 0 []
      (fun k hk hb => by simpa using h k hk hb)
    simp [decode_gp, hok]
  · intro h
    obtain ⟨k, h1, h2, h3⟩ := h
    have hf := decodeGo_fail keys (binExpansion p) 0 [] ⟨k, h1, h2, by omega⟩
    simp [decode_gp, hf]

/-- Witness for C7 amended: position 2 over two keys decodes to the
first key; position 5 over one key fails on the out-of-range 1-bit. -/
theorem C7_amended_decode_witness :
    decode_gp [((0 : ℕ), true), ((1 : ℕ), false)] (some 2) =
      some ⟨selectSpec [((0 : ℕ), true), ((1 : ℕ), false)] 0 (binExpansion 2) [], 0⟩ ∧
    decode_gp [((0 : ℕ), true)] (some 5) = none :=
  ⟨(C7_amended_decode [((0 : ℕ), true), ((1 : ℕ), false)] 2).1 (by decide),
   (C7_amended_decode [((0 : ℕ), true)] 5).2 ⟨2, by decide, by decide, by decide⟩⟩

/-- The accepted-item component of the three-part walk is the greedy
walk of the spec. -/
theorem specWalk3_fst (bins : List VBin) (thd : ℚ) (n : ℕ) :
    ∀ (gis : List GIb) (w : Option Mat) (s : ℚ),
      (specWalk3 bins thd n w s gis).1 = specWalk bins thd n w gis := by
  intro gis
  induction gis with
  | nil => intro w s; cases w <;> rfl
  | cons g t ih =>
    intro w s
    rw [specWalk3, specWalk]
    cases hlook : lookupBin bins g with
    | none => exact ih w s
    | some vb =>
      cases w with
      | none => simp only [ih]
      | some wm =>
        by_cases hs : thd ≤ supportOf (matMul wm vb.bm) n
        · simp only [if_pos hs, ih]
        · simp only [if_neg hs, ih]

/-- The fold of `validate_gp` steps computes exactly the three-part
walk: accepted items, last committed support, and working bitmap (the
first slot of the two-slot buffer). -/
theorem foldl_validateStep_spec (bins : List VBin) (thd : ℚ) (n : ℕ) :
    ∀ (gis : List GIb) (gs : List GIb) (s : ℚ) (ob : Option (Mat × Mat)),
      (gis.foldl (validateStep bins thd n) ⟨gs, s, ob⟩).genGis
          = gs ++ (specWalk3 bins thd n (ob.map Prod.fst) s gis).1 ∧
      (gis.foldl (validateStep bins thd n) ⟨gs, s, ob⟩).genSup
          = (specWalk3 bins thd n (ob.map Prod.fst) s gis).2.2 ∧
      (gis.foldl (validateStep bins thd n) ⟨gs, s, ob⟩).binArr.map Prod.fst
          = (specWalk3 bins thd n (ob.map Prod.fst) s gis).2.1 := by
  intro gis
  induction gis with
  | nil =>
    intro gs s ob
    refine ⟨by simp [specWalk3], by simp [specWalk3], by simp [specWalk3]⟩
  | cons g t ih =>
    intro gs s ob
    rw [List.foldl_cons]
    cases hlook : lookupBin bins g with
    | none =>
      have hstep : validateStep bins thd n ⟨gs, s, ob⟩ g = ⟨gs, s, ob⟩ := by
        rw [validateStep, hlook]
      rw [hstep, specWalk3]
      cases ob <;> · rw [hlook]; exact ih gs s _
    | some vb =>
      cases ob with
      | none =>
        have hstep : validateStep bins thd n ⟨gs, s, none⟩ g
            = ⟨gs ++ [g], s, some (vb.bm, vb.bm)⟩ := by
          rw [validateStep, hlook]
        rw [hstep, specWalk3, hlook]
        have h2 := ih (gs ++ [g]) s (some (vb.bm, vb.bm))
        simp only [Option.map_some'] at h2 ⊢
        refine ⟨?_, h2.2.1, h2.2.2⟩
        rw [h2.1, List.append_assoc]
        rfl
      | some pair =>
        obtain ⟨b0, b1⟩ := pair
        by_cases hs : thd ≤ supportOf (matMul b0 vb.bm) n
        · have hstep : validateStep bins thd n ⟨gs, s, some (b0, b1)⟩ g
              = ⟨gs ++ [g], round3 (supportOf (matMul b0 vb.bm) n),
                 some (matMul b0 vb.bm, vb.bm)⟩ := by
            rw [validateStep, hlook]
            simp only [if_pos hs]
          rw [hstep, specWalk3, hlook]
          simp only [Option.map_some', if_pos hs]
          have h2 := ih (gs ++ [g]) (round3 (supportOf (matMul b0 vb.bm) n))
            (some (matMul b0 vb.bm, vb.bm))
          simp only [Option.map_some'] at h2
          refine ⟨?_, h2.2.1, h2.2.2⟩
          rw [h2.1, List.append_assoc]
          rfl
        · have hstep : validateStep bins thd n ⟨gs, s, some (b0, b1)⟩ g
              = ⟨gs, s, some (b0, vb.bm)⟩ := by
            rw [validateStep, hlook]
            simp only [if_neg hs]
          rw [hstep, specWalk3, hlook]
          simp only [Option.map_some', if_neg hs]
          have h2 := ih gs s (some (b0, vb.bm))
          simp only [Option.map_some'] at h2
          exact h2

/-- With a present working bitmap, the walk's final bitmap is the AND of
the accepted items' bitmaps into it, and its last committed support is
that bitmap's rounded support (or the inherited value when nothing more
was accepted). -/
theorem specWalk3_some (bins : List VBin) (thd : ℚ) (n : ℕ) :
    ∀ (gis : List GIb) (w : Mat) (s : ℚ),
      (specWalk3 bins thd n (some w) s gis).2.1
          = some (andFromW bins w (specWalk bins thd n (some w) gis)) ∧
      (specWalk3 bins thd n (some w) s gis).2.2
          = (if specWalk bins thd n (some w) gis = [] then s
             else round3 (supportOf (andFromW bins w (specWalk bins thd n (some w) gis)) n)) := by
  intro gis
  induction gis with
  | nil => intro w s; simp [specWalk3, specWalk, andFromW]
  | cons g t ih =>
    intro w s
    rw [specWalk3, specWalk]
    cases hlook : lookupBin bins g with
    | none => exact ih w s
    | some vb =>
      have hAnd : ∀ acc, andFromW bins w (g :: acc) = andFromW bins (matMul w vb.bm) acc := by
        intro acc
        rw [andFromW, andFromW, List.foldl_cons]
        simp only [hlook]
      by_cases hs2 : thd ≤ supportOf (matMul w vb.bm) n
      · simp only [if_pos hs2]
        have h2 := ih (matMul w vb.bm) (round3 (supportOf (matMul w vb.bm) n))
        constructor
        · rw [hAnd]
          exact h2.1
        · rw [if_neg (by simp), hAnd]
          rw [h2.2]
          by_cases hacc : specWalk bins thd n (some (matMul w vb.bm)) t = []
          · rw [if_pos hacc, hacc]
            rw [andFromW]
            rfl
          · rw [if_neg hacc]
      · simp only [if_neg hs2]
        exact ih w s

/-- Folding AND steps from a present working bitmap never loses it. -/
theorem andBStep_foldl_some (bins : List VBin) :
    ∀ (l : List GIb) (w : Mat),
      l.foldl (andBStep bins) (some w) = some (andFromW bins w l) := by
  intro l
  induction l with
  | nil => intro w; rfl
  | cons g t ih =>
    intro w
    rw [List.foldl_cons, andFromW, List.foldl_cons]
    cases hlook : lookupBin bins g with
    | none =>
      rw [andBStep, hlook]
      exact ih w
    | some vb =>
      rw [andBStep, hlook]
      exact ih (matMul w vb.bm)

/-- When at least two items are accepted, the last committed support of
the walk started from an empty buffer is the rounded support of the AND
of all accepted bitmaps. -/
theorem specWalk3_none_sup (bins : List VBin) (thd : ℚ) (n : ℕ) :
    ∀ (gis : List GIb) (s : ℚ),
      2 ≤ (specWalk bins thd n none gis).length →
      (specWalk3 bins thd n none s gis).2.2
        = round3 (supportOf ((andBitmapsAcc bins (specWalk bins thd n none gis)).getD []) n) := by
  intro gis
  induction gis with
  | nil => intro s h; rw [specWalk] at h; simp at h
  | cons g t ih =>
    intro s hlen
    rw [specWalk] at hlen
    cases hlook : lookupBin bins g with
    | none =>
      rw [hlook] at hlen
      rw [specWalk3, specWalk, hlook]
      exact ih s hlen
    | some vb =>
      rw [hlook] at hlen
      rw [specWalk3, specWalk, hlook]
      have hlen2 : 2 ≤ (g :: specWalk bins thd n (some vb.bm) t).length := hlen
      have h3 := specWalk3_some bins thd n t vb.bm s
      have hne : specWalk bins thd n (some vb.bm) t ≠ [] := by
        intro hE
        rw [hE] at hlen2
        simp at hlen2
      show (specWalk3 bins thd n (some vb.bm) s t).2.2
          = round3 (supportOf
              ((andBitmapsAcc bins (g :: specWalk bins thd n (some vb.bm) t)).getD []) n)
      rw [h3.2, if_neg hne]
      simp only [andBitmapsAcc, List.foldl_cons, andBStep, hlook]
      rw [andBStep_foldl_some]
      rfl

/-- Claim C4: `validate_gp` behaves exactly as specified — the first
matched item is accepted unconditionally, each subsequent item only if
ANDing its bitmap keeps support at or above the threshold; when at most
one item survives, the original unvalidated pattern is returned
unchanged, otherwise a new pattern holding exactly the accepted items
with the recomputed (rounded) support of their combined bitmap. -/
theorem C4_validate_gp_refines (bins : List VBin) (thd : ℚ) (n : ℕ) (pat : GPat) :
    validate_gp bins thd n pat = validateSpecModel bins thd n pat := by
  have hf := foldl_validateStep_spec bins thd n pat.gis [] 0 none
  simp only [Option.map_none', List.nil_append] at hf
  have hg : (pat.gis.foldl (validateStep bins thd n) ⟨[], 0, none⟩).genGis
      = specWalk bins thd n none pat.gis := by
    rw [hf.1, specWalk3_fst]
  simp only [validate_gp, validateSpecModel, hg]
  by_cases hlen : (specWalk bins thd n none pat.gis).length ≤ 1
  · rw [if_pos hlen, if_pos hlen]
  · rw [if_neg hlen, if_neg hlen]
    have hsup := specWalk3_none_sup bins thd n pat.gis 0 (by omega)
    rw [hf.2.1, hsup]

/-- Sum of a function mapped over `List.range` as a `Finset` sum. -/
theorem listSumRange (f : ℕ → ℕ) : ∀ n : ℕ,
    ((List.range n).map f).sum = ∑ i in Finset.range n, f i := by
  intro n
  induction n with
  | zero => rfl
  | succ m ih =>
    rw [List.range_succ, List.map_append, List.sum_append, Finset.sum_range_succ, ih]
    simp

/-- Count over `List.range` as a `Finset` sum of indicators. -/
theorem countP_range (p : ℕ → Bool) : ∀ n : ℕ,
    (List.range n).countP p = ∑ j in Finset.range n, (if p j then 1 else 0) := by
  intro n
  induction n with
  | zero => rfl
  | succ m ih =>
    rw [List.range_succ, List.countP_append, Finset.sum_range_succ, ih]
    simp [List.countP_cons]

/-- The number of true entries of an n-by-n matrix of a predicate. -/
theorem matSum_range (f : ℕ → ℕ → Bool) (n : ℕ) :
    matSum ((List.range n).map (fun i => (List.range n).map (fun j => f i j)))
      = ∑ i in Finset.range n, ∑ j in Finset.range n, (if f i j then 1 else 0) := by
  rw [matSum, List.map_map]
  have heach : ∀ i, (countTrue ∘ fun i => (List.range n).map (fun j => f i j)) i
      = ∑ j in Finset.range n, (if f i j then 1 else 0) := by
    intro i
    show countTrue ((List.range n).map (fun j => f i j)) = _
    rw [countTrue, List.countP_map]
    rw [countP_range (id ∘ fun j => f i j) n]
    simp [Function.comp]
  rw [List.map_congr_left (fun i _ => heach i), listSumRange]

/-- Entry access of an n-by-n matrix of a predicate. -/
theorem entryM_range (f : ℕ → ℕ → Bool) (n i j : ℕ) (hi : i < n) (hj : j < n) :
    entryM ((List.range n).map (fun i => (List.range n).map (fun j => f i j))) i j = f i j := by
  rw [entryM, List.getD_eq_getElem?_getD, List.getD_eq_getElem?_getD,
    List.getElem?_map, List.getElem?_range hi]
  simp only [Option.map_some', Option.getD_some]
  rw [List.getElem?_map, List.getElem?_range hj]
  rfl

/-- Transpose of an n-by-n matrix of a predicate swaps the indices. -/
theorem transposeM_range (f : ℕ → ℕ → Bool) (n : ℕ) :
    transposeM ((List.range n).map (fun i => (List.range n).map (fun j => f i j)))
      = (List.range n).map (fun j => (List.range n).map (fun i => f i j)) := by
  rw [transposeM, List.length_map, List.length_range]
  refine List.map_congr_left ?_
  intro j hj
  refine List.map_congr_left ?_
  intro i hi
  exact entryM_range f n i j (List.mem_range.1 hi) (List.mem_range.1 hj)

/-- Transposing preserves the number of true entries. -/
theorem matSum_transposeM_range (f : ℕ → ℕ → Bool) (n : ℕ) :
    matSum (transposeM ((List.range n).map (fun i => (List.range n).map (fun j => f i j))))
      = matSum ((List.range n).map (fun i => (List.range n).map (fun j => f i j))) := by
  rw [transposeM_range, matSum_range, matSum_range]
  exact Finset.sum_comm

/-- The number of off-diagonal positions of an n-by-n grid. -/
theorem offDiag_sum (n : ℕ) :
    (∑ i in Finset.range n, ∑ j in Finset.range n, (if i = j then (0 : ℕ) else 1))
      = n * (n - 1) := by
  have hinner : ∀ i ∈ Finset.range n,
      (∑ j in Finset.range n, (if i = j then (0 : ℕ) else 1)) = n - 1 := by
    intro i hi
    rw [← Finset.sum_erase_add (Finset.range n) _ hi, if_pos rfl, add_zero]
    rw [Finset.sum_congr rfl
      (fun j hj => if_neg (fun h => (Finset.mem_erase.1 hj).1 h.symm))]
    rw [Finset.sum_const, Finset.card_erase_of_mem hi, Finset.card_range, smul_eq_mul, mul_one]
  rw [Finset.sum_congr rfl hinner, Finset.sum_const, Finset.card_range, smul_eq_mul]

/-- A 0/1 indicator is at most 1. -/
theorem ite_bool_le_one (b : Bool) : (if b = true then (1 : ℕ) else 0) ≤ 1 := by
  cases b <;> simp

/-- Both comparison modes zero the diagonal, so at most every
off-diagonal entry is set. -/
theorem matSum_binMatrix_le (vals : List ℚ) (eq : Bool) :
    matSum (binMatrix vals eq) ≤ vals.length * (vals.length - 1) := by
  rw [binMatrix, matSum_range, ← offDiag_sum vals.length]
  refine Finset.sum_le_sum ?_
  intro i _
  refine Finset.sum_le_sum ?_
  intro j _
  rcases eq_or_ne i j with hij | hij
  · subst hij
    rw [if_pos rfl]
    cases eq with
    | false => simp [lt_irrefl]
    | true => simp
  · rw [if_neg hij]
    exact ite_bool_le_one _

/-- In strict mode, each unordered row pair is counted at most once:
the matrix and its reflection together stay within the off-diagonal
count. -/
theorem matSum_binMatrix_strict (vals : List ℚ) :
    2 * matSum (binMatrix vals false) ≤ vals.length * (vals.length - 1) := by
  rw [binMatrix, matSum_range]
  simp only [Bool.false_eq_true, if_false]
  rw [← offDiag_sum vals.length, two_mul]
  have hswap : (∑ i in Finset.range vals.length, ∑ j in Finset.range vals.length,
        (if (decide (vals.getD j 0 < vals.getD i 0) : Bool) then 1 else 0))
      = ∑ i in Finset.range vals.length, ∑ j in Finset.range vals.length,
        (if (decide (vals.getD i 0 < vals.getD j 0) : Bool) then 1 else 0) :=
    Finset.sum_comm
  nth_rewrite 2 [hswap]
  rw [← Finset.sum_add_distrib]
  refine Finset.sum_le_sum ?_
  intro i _
  rw [← Finset.sum_add_distrib]
  refine Finset.sum_le_sum ?_
  intro j _
  rcases eq_or_ne i j with hij | hij
  · subst hij
    simp [lt_irrefl]
  · rw [if_neg hij]
    simp only [decide_eq_true_eq]
    by_cases h1 : vals.getD j 0 < vals.getD i 0
    · have h2 : ¬ vals.getD i 0 < vals.getD j 0 := not_lt.2 (le_of_lt h1)
      rw [if_pos h1, if_neg h2]
    · rw [if_neg h1, Nat.zero_add]
      by_cases h3 : vals.getD i 0 < vals.getD j 0
      · rw [if_pos h3]
      · rw [if_neg h3]
        omega

/-- Support of any bitmap is nonnegative. -/
theorem supportOf_nonneg (m : Mat) (n : ℕ) : 0 ≤ supportOf m n := by
  rw [supportOf, Rat.mkRat_eq_div]
  refine div_nonneg ?_ ?_
  · exact_mod_cast Int.ofNat_nonneg (matSum m)
  · positivity

/-- The pair count `n(n-1)/2` doubles back exactly. -/
theorem pairCount_double (n : ℕ) (hn : 2 ≤ n) : 2 * (n * (n - 1) / 2) = n * (n - 1) := by
  have heven : 2 ∣ n * (n - 1) := by
    have h2 := (Nat.even_mul_succ_self (n - 1)).two_dvd
    have h3 : (n - 1) * (n - 1 + 1) = n * (n - 1) := by
      rw [Nat.sub_add_cancel (by omega), Nat.mul_comm]
    rwa [h3] at h2
  omega

/-- A bitmap with at most all off-diagonal entries set has support at
most 2. -/
theorem supportOf_le_two (m : Mat) (n : ℕ) (hn : 2 ≤ n)
    (h : matSum m ≤ n * (n - 1)) : supportOf m n ≤ 2 := by
  rw [supportOf, Rat.mkRat_eq_div]
  have hd1 : 1 ≤ n * (n - 1) / 2 := by
    have h2 : 2 ≤ n * (n - 1) := by
      calc 2 = 2 * 1 := rfl
      _ ≤ n * (n - 1) := Nat.mul_le_mul hn (by omega)
    omega
  have hden : 0 < ((n * (n - 1) / 2 : ℕ) : ℚ) := by exact_mod_cast hd1
  rw [div_le_iff₀ hden]
  have hN : matSum m ≤ 2 * (n * (n - 1) / 2) := by
    rw [pairCount_double n hn]
    exact h
  calc ((matSum m : ℤ) : ℚ) = ((matSum m : ℕ) : ℚ) := by push_cast; ring
  _ ≤ ((2 * (n * (n - 1) / 2) : ℕ) : ℚ) := by exact_mod_cast hN
  _ = 2 * ((n * (n - 1) / 2 : ℕ) : ℚ) := by push_cast; ring

/-- A bitmap that charges each unordered pair at most once has support
at most 1. -/
theorem supportOf_le_one (m : Mat) (n : ℕ) (hn : 2 ≤ n)
    (h : 2 * matSum m ≤ n * (n - 1)) : supportOf m n ≤ 1 := by
  rw [supportOf, Rat.mkRat_eq_div]
  have hd1 : 1 ≤ n * (n - 1) / 2 := by
    have h2 : 2 ≤ n * (n - 1) := by
      calc 2 = 2 * 1 := rfl
      _ ≤ n * (n - 1) := Nat.mul_le_mul hn (by omega)
    omega
  have hden : 0 < ((n * (n - 1) / 2 : ℕ) : ℚ) := by exact_mod_cast hd1
  rw [div_le_one₀ hden]
  have hN : matSum m ≤ n * (n - 1) / 2 := by omega
  calc ((matSum m : ℤ) : ℚ) = ((matSum m : ℕ) : ℚ) := by push_cast; ring
  _ ≤ ((n * (n - 1) / 2 : ℕ) : ℚ) := by exact_mod_cast hN

/-- Every bin's bitmap is a raw column bitmap or its transpose. -/
theorem initGp_bm (data : List (List ℚ)) (cols : List ℕ) (thd : ℚ) (eq : Bool)
    (e : VBin) (he : e ∈ initGpAttributes data cols thd eq) :
    ∃ c, e.bm = binMatrix (colOf data c) eq ∨
      e.bm = transposeM (binMatrix (colOf data c) eq) := by
  obtain ⟨c, _, he2⟩ := List.mem_flatMap.1 he
  by_cases h2 : thd ≤ supportOf (binMatrix (colOf data c) eq) data.length
  · simp only [if_pos h2, List.mem_cons, List.not_mem_nil, or_false] at he2
    rcases he2 with h | h
    · exact ⟨c, Or.inl (by rw [h])⟩
    · exact ⟨c, Or.inr (by rw [h])⟩
  · simp only [if_neg h2] at he2
    cases he2

/-- Claim C6, amended: for every bin produced by bitmap construction on
a dataset with at least 2 rows, the computed support lies in [0, 2];
under the strict comparison it lies in [0, 1], but under the
equality-allowed comparison tied values can push it above 1 (up to 2),
because both orientations of a tied pair are counted. -/
theorem C6_amended_support_bounds (data : List (List ℚ)) (cols : List ℕ) (thd : ℚ)
    (eq : Bool) (e : VBin) (he : e ∈ initGpAttributes data cols thd eq)
    (hn : 2 ≤ data.length) :
    0 ≤ supportOf e.bm data.length ∧ supportOf e.bm data.length ≤ 2 ∧
      (eq = false → supportOf e.bm data.length ≤ 1) := by
  obtain ⟨c, hc⟩ := initGp_bm data cols thd eq e he
  have hlen : (colOf data c).length = data.length := by rw [colOf, List.length_map]
  have hS : matSum e.bm = matSum (binMatrix (colOf data c) eq) := by
    rcases hc with h | h
    · rw [h]
    · rw [h]
      exact matSum_transposeM_range _ (colOf data c).length
  have hsup : supportOf e.bm data.length
      = supportOf (binMatrix (colOf data c) eq) data.length := by
    rw [supportOf, supportOf, hS]
  rw [hsup]
  refine ⟨supportOf_nonneg _ _, ?_, ?_⟩
  · refine supportOf_le_two _ _ hn ?_
    rw [← hlen]
    exact matSum_binMatrix_le (colOf data c) eq
  · intro heq
    subst heq
    refine supportOf_le_one _ _ hn ?_
    rw [← hlen]
    exact matSum_binMatrix_strict (colOf data c)

set_option maxRecDepth 100000 in
/-- Witness for C6 amended at the Age column of the running example. -/
theorem C6_amended_support_bounds_witness :
    0 ≤ supportOf (binMatrix (colOf data5 0) false) 5 ∧
    supportOf (binMatrix (colOf data5 0) false) 5 ≤ 2 ∧
    (false = false → supportOf (binMatrix (colOf data5 0) false) 5 ≤ 1) := by
  have h := C6_amended_support_bounds data5 [0, 1, 2, 3] (mkRat 1 2) false
    ⟨(0, true), binMatrix (colOf data5 0) false⟩ (by decide) (by decide)
  exact h
